import Mathlib

/-!
Verification development for the shogun_search indexing and retrieval engine.

The Rust source is embedded shallowly:

* machine integers are modelled as `Nat`, with an explicit `% 2^32` exactly
  where the Rust `u32` arithmetic can overflow (`len * POSTING_SIZE` in
  `RawPostingList::new`);
* the on-disk dictionary file is a `List Nat` of bytes; `memmap` regions are
  byte-list slices;
* `BTreeMap` (String-keyed term dictionary, u32-keyed posting maps) is
  modelled as a sorted association list with ordered upsert, which is the
  observable behaviour of `BTreeMap::get_mut`/`insert` plus in-order
  iteration;
* the `fst::Map` term index (an external crate) is modelled as the list of
  `(key, offset)` pairs inserted into the FST builder, with exact `get`
  modelled by first-match lookup;
* the analyzers are external collaborators (`analyze : &str -> Result<Vec<&str>>`);
  they are parameters of the model (`tA`, `cA` give each document's token
  list, and the error-aware entry point takes `Except` values);
* `f64` scoring is modelled over an abstract linearly ordered field together
  with an abstract square-root function; IEEE non-finite results (NaN, ±inf)
  are tracked by an explicit wrapper type `F`.  Rust float comparisons
  (`>`/`<` returning false on NaN) are modelled on `F`;
* Rust `Vec::remove(i)`, which panics when `i` is out of bounds, is modelled
  by an `Option`-valued removal; `none` models the panic.

Within the posting-list combinators every call to the bounds-checked
`RawPostingList` getters uses an index that is provably below `len`, so the
`Result`-returning getters of the source always succeed there; the combinator
model therefore uses the total byte-reads directly.
-/

namespace Shogun

/-! ### Bytes and little-endian encodings -/

/-- Little-endian `u32` serialization (`byteorder::WriteBytesExt::write_u32`),
as the four bytes of `n % 2^32`. -/
def u32le (n : Nat) : List Nat :=
  [n % 256, n / 256 % 256, n / 65536 % 256, n / 16777216 % 256]

/-- Little-endian `u64` serialization (`write_u64`). -/
def u64le (n : Nat) : List Nat :=
  [n % 256, n / 256 % 256, n / 65536 % 256, n / 16777216 % 256,
   n / 4294967296 % 256, n / 1099511627776 % 256,
   n / 281474976710656 % 256, n / 72057594037927936 % 256]

/-- Little-endian `u32` read of the first four bytes of a byte list
(`byteorder::LittleEndian::read_u32`). -/
def decodeU32le (b : List Nat) : Nat :=
  b.getD 0 0 + 256 * b.getD 1 0 + 65536 * b.getD 2 0 + 16777216 * b.getD 3 0

/-- Reading a `u32le` at offset `off` of a file, `none` when fewer than four
bytes remain (the `read_u32` call then fails with an I/O error). -/
def readU32le (file : List Nat) (off : Nat) : Option Nat :=
  if off + 4 ≤ file.length then some (decodeU32le (file.drop off)) else none

/-- Modelled from the spec: the error kind enumeration of §7 (`error.rs` is
not under `src/`): Io, Incompatible, OutOfRange, FstError. -/
inductive Error where
  | io : Error
  | incompatible : Error
  | outOfRange : Error
  | fstError : Error
deriving DecidableEq, Repr

/-- `POSTING_SIZE`: doc_id(32bit) + tf_title + tf_content + norm_title +
norm_content, in bytes. -/
def POSTING_SIZE : Nat := 8

/-- `INTERSECTION_PERFORMANCE_TIPPING_SIZE_DIFF` from `posting.rs`. -/
def TIPPING : Nat := 50

/-! ### RawPostingList (the memory-mapped reader) -/

/-- The reader over a posting-list block: the mapped byte region and the
`len` header value. -/
structure RawPostingList where
  mmap : List Nat
  len : Nat
deriving DecidableEq, Repr

/-- `RawPostingList::new(file, SeekFrom::Start(off))`: read the `len:u32le`
header (an I/O error if the file ends before it), reject `len == 0`, compute
`bytes = len * POSTING_SIZE` in wrapping `u32` arithmetic, check the file
holds `off + 4 + bytes` bytes, and map exactly that region. -/
def RawPostingList.new (file : List Nat) (off : Nat) :
    Except Error RawPostingList :=
  match readU32le file off with
  | none => .error .io
  | some len =>
    if len = 0 then .error .outOfRange
    else
      let bytes := len * POSTING_SIZE % 4294967296
      if file.length < off + 4 + bytes then .error .outOfRange
      else .ok { mmap := (file.drop (off + 4)).take bytes, len := len }

/-- `RawPostingList::get_doc_id` with its bounds check. -/
def RawPostingList.get_doc_id (l : RawPostingList) (i : Nat) :
    Except Error Nat :=
  if l.len ≤ i then .error .outOfRange
  else .ok (decodeU32le (l.mmap.drop (i * POSTING_SIZE)))

/-- `RawPostingList::get_tf` with its bounds check: bytes at
`i*POSTING_SIZE + 4` and `+ 5`. -/
def RawPostingList.get_tf (l : RawPostingList) (i : Nat) :
    Except Error (Nat × Nat) :=
  if l.len ≤ i then .error .outOfRange
  else .ok (l.mmap.getD (i * POSTING_SIZE + 4) 0, l.mmap.getD (i * POSTING_SIZE + 5) 0)

/-- `RawPostingList::get_norm` with its bounds check: bytes at
`i*POSTING_SIZE + 6` and `+ 7`. -/
def RawPostingList.get_norm (l : RawPostingList) (i : Nat) :
    Except Error (Nat × Nat) :=
  if l.len ≤ i then .error .outOfRange
  else .ok (l.mmap.getD (i * POSTING_SIZE + 6) 0, l.mmap.getD (i * POSTING_SIZE + 7) 0)

/-- Total read of `get_doc_id` (every combinator call site has `i < len`). -/
def RawPostingList.docIdAt (l : RawPostingList) (i : Nat) : Nat :=
  decodeU32le (l.mmap.drop (i * POSTING_SIZE))

/-- Total read of `get_tf`. -/
def RawPostingList.tfAt (l : RawPostingList) (i : Nat) : Nat × Nat :=
  (l.mmap.getD (i * POSTING_SIZE + 4) 0, l.mmap.getD (i * POSTING_SIZE + 5) 0)

/-- Total read of `get_norm`. -/
def RawPostingList.normAt (l : RawPostingList) (i : Nat) : Nat × Nat :=
  (l.mmap.getD (i * POSTING_SIZE + 6) 0, l.mmap.getD (i * POSTING_SIZE + 7) 0)

/-- One on-disk posting record: doc_id, then tf pair, then norm pair, 8 bytes. -/
def recBytes (r : Nat × (Nat × Nat) × (Nat × Nat)) : List Nat :=
  u32le r.1 ++ [r.2.1.1, r.2.1.2, r.2.2.1, r.2.2.2]

/-- Builds a concrete `RawPostingList` from decoded records (for concrete
test inputs to the combinators). -/
def recsToRPL (rs : List (Nat × (Nat × Nat) × (Nat × Nat))) : RawPostingList :=
  { mmap := (rs.map recBytes).flatten, len := rs.length }

/-! ### Runtime postings and the merger -/

/-- `TermPriorityInfo`: the `(tf_title, tf_content)` and
`(norm_title, norm_content)` tuple carried per merged query term. -/
structure TermPriorityInfo where
  tf : Nat × Nat
  norm : Nat × Nat
deriving DecidableEq, Repr

/-- `TermPriorityInfo::not_exist()`: the sentinel zero tuple. -/
def TermPriorityInfo.notExist : TermPriorityInfo := ⟨(0, 0), (0, 0)⟩

/-- The real `(tf, norm)` tuple read from a raw list at index `i`. -/
def realTPI (L : RawPostingList) (i : Nat) : TermPriorityInfo :=
  ⟨L.tfAt i, L.normAt i⟩

/-- Runtime `Posting`: a doc id plus one `TermPriorityInfo` per merge that
touched it. -/
structure Posting where
  doc_id : Nat
  term_priority_info : List TermPriorityInfo
deriving DecidableEq, Repr

/-- `Posting::new(doc_id, before_term_num)`: `before_term_num` sentinel
entries. -/
def Posting.new (doc : Nat) (beforeTermNum : Nat) : Posting :=
  ⟨doc, List.replicate beforeTermNum TermPriorityInfo.notExist⟩

/-- Junk posting used as the (never observed) default of in-bounds reads. -/
def pjunk : Posting := ⟨0, []⟩

/-- In-place `posting.add(info)` at vector index `i`
(`self.postings.get_unchecked_mut(i)` followed by `add`). -/
def addInfoAt (ps : List Posting) (i : Nat) (x : TermPriorityInfo) :
    List Posting :=
  ps.set i (let p := ps.getD i pjunk
            { p with term_priority_info := p.term_priority_info ++ [x] })

/-- `PostingListMerger`: the working set and the merge counter. -/
structure Merger where
  postings : List Posting
  merged_num : Nat
deriving DecidableEq, Repr

/-- `PostingListMerger::new()`. -/
def Merger.new : Merger := ⟨[], 0⟩

/-- `Vec::remove(i)`: `none` models the out-of-bounds panic. -/
def removeAt (l : List Posting) (i : Nat) : Option (List Posting) :=
  if i < l.length then some (l.eraseIdx i) else none

/-- The shared removal loop `for i in need_remove { self.postings.remove(i) }`
of both intersection strategies (indices are applied against the shrinking
vector, exactly as in the source). -/
def removeAll (l : List Posting) (idxs : List Nat) : Option (List Posting) :=
  idxs.foldlM removeAt l

/-- The body of the inner binary-search loop of `intersection_by_search`.
The first argument is iteration fuel: every recursive call strictly
decreases `hi - lo`, and a recursive call is only made while the new window
is nonempty, so with initial fuel `hi - lo` the loop always exits through
its own conditions, never through the fuel. -/
def bsearchGo (L : RawPostingList) (v : Nat) : Nat → Nat → Nat → Option Nat × Nat
  | 0, lo, _hi => (none, lo)
  | fuel + 1, lo, hi =>
    let mid := lo + (hi - lo) / 2
    let c := L.docIdAt mid
    if c < v then
      if mid + 1 ≥ hi then (none, mid + 1) else bsearchGo L v fuel (mid + 1) hi
    else if v < c then
      if lo ≥ mid then (none, lo) else bsearchGo L v fuel lo mid
    else (some mid, mid + 1)

/-- The inner binary-search loop of `intersection_by_search`: returns the
found index (if any) and the final value of `min`. -/
def bsearchLoop (L : RawPostingList) (v lo hi : Nat) : Option Nat × Nat :=
  bsearchGo L v (hi - lo) lo hi

/-- The `for i in 0..self.postings.len()` loop of `intersection_by_search`:
on `min >= max` it drains `i..` and breaks; otherwise it binary-searches,
appending the real tuple on a hit and recording `i` in `need_remove` on a
miss. -/
def searchGo (ps : List Posting) (L : RawPostingList) (idxs : List Nat)
    (lo : Nat) (nr : List Nat) : List Posting × List Nat :=
  match idxs with
  | [] => (ps, nr)
  | i :: rest =>
    if lo ≥ L.len then (ps.take i, nr)
    else
      match bsearchLoop L ((ps.getD i pjunk).doc_id) lo L.len with
      | (some mid, lo') => searchGo (addInfoAt ps i (realTPI L mid)) L rest lo' nr
      | (none, lo') => searchGo ps L rest lo' (nr ++ [i])

/-- `PostingListMerger::intersection_by_search`. `none` models a panic in the
removal loop. -/
def Merger.intersectionBySearch (m : Merger) (L : RawPostingList) :
    Option Merger :=
  let r := searchGo m.postings L (List.range m.postings.length) 0 []
  (removeAll r.1 r.2).map fun ps => ⟨ps, m.merged_num + 1⟩

/-- The body of the two-pointer loop of `intersection_by_stitch`; returns
the updated vector, the final `i`, and `need_remove`.  The first argument is
iteration fuel: every iteration increases `i + j` by at least one while the
guard requires `i < ps.length` and `j < L.len` (and `addInfoAt` preserves the
vector length), so with initial fuel `ps.length + L.len` the loop always
exits through its guard, never through the fuel. -/
def stitchGoF (L : RawPostingList) :
    Nat → List Posting → Nat → Nat → List Nat → List Posting × Nat × List Nat
  | 0, ps, i, _j, nr => (ps, i, nr)
  | fuel + 1, ps, i, j, nr =>
    if i < ps.length ∧ j < L.len then
      let va := (ps.getD i pjunk).doc_id
      let vb := L.docIdAt j
      if va < vb then stitchGoF L fuel ps (i + 1) j (nr ++ [i])
      else if vb < va then stitchGoF L fuel ps i (j + 1) nr
      else stitchGoF L fuel (addInfoAt ps i (realTPI L j)) (i + 1) (j + 1) nr
    else (ps, i, nr)

/-- The two-pointer loop of `intersection_by_stitch`. -/
def stitchGo (ps : List Posting) (L : RawPostingList) (i j : Nat)
    (nr : List Nat) : List Posting × Nat × List Nat :=
  stitchGoF L (ps.length + L.len) ps i j nr

/-- `PostingListMerger::intersection_by_stitch`. `none` models a panic in the
removal loop. -/
def Merger.intersectionByStitch (m : Merger) (L : RawPostingList) :
    Option Merger :=
  let r := stitchGo m.postings L 0 0 []
  let ps2 := if r.2.1 < r.1.length then r.1.take r.2.1 else r.1
  (removeAll ps2 r.2.2).map fun ps => ⟨ps, m.merged_num + 1⟩

/-- `PostingListMerger::intersection`: the size-ratio dispatch between the
two strategies. -/
def Merger.intersection (m : Merger) (L : RawPostingList) : Option Merger :=
  if m.postings.length < L.len / TIPPING then m.intersectionBySearch L
  else m.intersectionByStitch L

/-- The body of the two-pointer loop of `union`; returns the updated vector,
the final `j`, and `need_insert`.  Fueled exactly like `stitchGoF`: with
initial fuel `ps.length + L.len` the loop always exits through its guard. -/
def unionGoF (L : RawPostingList) :
    Nat → List Posting → Nat → Nat → List Nat → List Posting × Nat × List Nat
  | 0, ps, _i, j, ins => (ps, j, ins)
  | fuel + 1, ps, i, j, ins =>
    if i < ps.length ∧ j < L.len then
      let va := (ps.getD i pjunk).doc_id
      let vb := L.docIdAt j
      if va < vb then unionGoF L fuel (addInfoAt ps i TermPriorityInfo.notExist) (i + 1) j ins
      else if vb < va then unionGoF L fuel ps i (j + 1) (ins ++ [j])
      else unionGoF L fuel (addInfoAt ps i (realTPI L j)) (i + 1) (j + 1) ins
    else (ps, j, ins)

/-- The two-pointer loop of `union`. -/
def unionGo (ps : List Posting) (L : RawPostingList) (i j : Nat)
    (ins : List Nat) : List Posting × Nat × List Nat :=
  unionGoF L (ps.length + L.len) ps i j ins

/-- The `insert` closure of `union`: a fresh posting with `merged_num`
sentinel entries followed by the real tuple. -/
def unionInsert (L : RawPostingList) (mergedNum k : Nat) : Posting :=
  { doc_id := L.docIdAt k
    term_priority_info :=
      List.replicate mergedNum TermPriorityInfo.notExist ++ [realTPI L k] }

/-- Ordered insertion used to model `sort_unstable_by(doc_id.cmp)`. -/
def insertByDoc (p : Posting) : List Posting → List Posting
  | [] => [p]
  | q :: qs => if p.doc_id < q.doc_id then p :: q :: qs else q :: insertByDoc p qs

/-- Sorting by ascending doc id (models `sort_unstable_by`; within a query the
doc ids in the vector are distinct, so any comparison sort produces this
result). -/
def sortByDoc (l : List Posting) : List Posting := l.foldr insertByDoc []

/-- `PostingListMerger::union`: the stitch loop, then insertion of the
remaining records `j..len`, then of the `need_insert` records, then the sort,
then `merged_num + 1`. -/
def Merger.union (m : Merger) (L : RawPostingList) : Merger :=
  let r := unionGo m.postings L 0 0 []
  let tail := (List.range' r.2.1 (L.len - r.2.1)).map (unionInsert L m.merged_num)
  let inserted := r.2.2.map (unionInsert L m.merged_num)
  ⟨sortByDoc (r.1 ++ tail ++ inserted), m.merged_num + 1⟩

/-! ### Float model for scoring (`score.rs`)

An `f64` value is a finite number, an infinity, or NaN.  The finite carrier
is an abstract linearly ordered field; `sqrtFn` abstracts `f64::sqrt` (the
claims settled here only use that the square root of zero is zero and that
square roots of nonzero nonnegative inputs are nonzero). -/

/-- IEEE-style value: finite, ±infinity (`inf true` is `+inf`), or NaN. -/
inductive F (α : Type) where
  | fin : α → F α
  | inf : Bool → F α
  | nan : F α
deriving DecidableEq, Repr

/-- IEEE `>` on modelled doubles: false whenever either side is NaN. -/
def fgt {α : Type} [LinearOrder α] : F α → F α → Bool
  | .nan, _ => false
  | _, .nan => false
  | .inf true, .inf true => false
  | .inf true, _ => true
  | .inf false, _ => false
  | .fin _, .inf true => false
  | .fin _, .inf false => true
  | .fin a, .fin b => decide (b < a)

/-- The `Ord for Score` implementation: `Greater` if `self.cosine >
other.cosine`, `Less` if `<`, else `Equal` (both float comparisons are false
on NaN). -/
def scoreCmp {α : Type} [LinearOrder α] (a b : F α) : Ordering :=
  if fgt a b then .gt else if fgt b a then .lt else .eq

/-- IEEE division of finite doubles: `0/0` is NaN, `x/0` for `x ≠ 0` is a
signed infinity, otherwise the finite quotient. -/
def fdiv {α : Type} [LinearOrderedField α] (x y : α) : F α :=
  if y = 0 then (if x = 0 then .nan else .inf (decide (0 < x))) else .fin (x / y)

/-- `calc_cosine_unchecked(a, b)`: one pass accumulating
`(product, q_sum_a, q_sum_b)` over indices `0..a.len()`, then
`product / (q_sum_a.sqrt() * q_sum_b.sqrt())`. -/
def calcCosineUnchecked {α : Type} [LinearOrderedField α] (sqrtFn : α → α)
    (a b : List α) : F α :=
  let s := (List.range a.length).foldl
    (fun (acc : α × α × α) i =>
      let an := a.getD i 0
      let bn := b.getD i 0
      (acc.1 + an * bn, acc.2.1 + an * an, acc.2.2 + bn * bn))
    (0, 0, 0)
  fdiv s.1 (sqrtFn s.2.1 * sqrtFn s.2.2)

/-! ### The builder (`builder.rs`, `term.rs`, and the build half of
`posting.rs`)

Documents carry their id and the character counts of the two fields; the
analyzer outputs are parameters (`tA`, `cA`).  The abstract `calcTf` and
`calcNorm` model the `f64`-based compressions of `score.rs`; the claims about
the builder are parametric in them (only their u8 range matters for the
byte-level layout). -/

/-- Modelled from the spec §3 (`document.rs` is not under `src/`): a document
is an unsigned 32-bit id plus a title and a content string; the model keeps
the id and the two character counts (`chars().count()` of each field), and
takes the analyzer outputs as parameters. -/
structure Doc where
  id : Nat
  titleLen : Nat
  contentLen : Nat
deriving DecidableEq, Repr

/-- In-memory `BuildingPostingData`. -/
structure BPD where
  freq_title : Nat
  freq_content : Nat
  norm_title : Nat
  norm_content : Nat
deriving DecidableEq, Repr

/-- `BuildingPostingData::new(doc)`: zero frequencies, norms computed from
the character counts of BOTH fields of the document. -/
def BPD.mk0 (calcNorm : Nat → Nat) (d : Doc) : BPD :=
  ⟨0, 0, calcNorm d.titleLen, calcNorm d.contentLen⟩

/-- `BuildingPostingData::add_tf`: saturating (at `u16::MAX`) bump of the
field selected by `is_title`. -/
def BPD.addTf (b : BPD) (isTitle : Bool) : BPD :=
  if isTitle then
    (if b.freq_title < 65535 then { b with freq_title := b.freq_title + 1 } else b)
  else
    (if b.freq_content < 65535 then { b with freq_content := b.freq_content + 1 } else b)

/-- The `BTreeMap<u32, BuildingPostingData>` posting map, as a sorted
association list. -/
abbrev PostingMap := List (Nat × BPD)

/-- `BuildingTermData::add_posting`: upsert at `doc.id`; the `Bool` reports
whether a new `BuildingPostingData` was created (and hence `calc_norm` was
invoked on both field lengths). -/
def addPosting (calcNorm : Nat → Nat) (m : PostingMap) (d : Doc)
    (isTitle : Bool) : PostingMap × Bool :=
  match m with
  | [] => ([(d.id, (BPD.mk0 calcNorm d).addTf isTitle)], true)
  | (k, b) :: rest =>
    if d.id < k then ((d.id, (BPD.mk0 calcNorm d).addTf isTitle) :: (k, b) :: rest, true)
    else if d.id = k then ((k, b.addTf isTitle) :: rest, false)
    else
      let r := addPosting calcNorm rest d isTitle
      ((k, b) :: r.1, r.2)

section Builder

variable {κ : Type} [LinearOrder κ]

/-- The `BTreeMap<String, BuildingTermData>` building dictionary, as a sorted
association list over an arbitrary linearly ordered term type. -/
abbrev Dict (κ : Type) := List (κ × PostingMap)

/-- First-match association lookup (the observable `get` of the map models). -/
def alookup (l : Dict κ) (t : κ) : Option PostingMap :=
  (l.find? fun e => decide (e.1 = t)).map Prod.snd

/-- `Builder::add_term`'s dictionary upsert: create a fresh
`BuildingTermData` holding one posting, or `add_posting` into the existing
one.  The `Bool` reports whether a new posting was created. -/
def dictUpsert (calcNorm : Nat → Nat) (dict : Dict κ) (t : κ) (d : Doc)
    (isTitle : Bool) : Dict κ × Bool :=
  match dict with
  | [] => ([(t, (addPosting calcNorm [] d isTitle).1)], true)
  | (t', m) :: rest =>
    if t < t' then ((t, (addPosting calcNorm [] d isTitle).1) :: (t', m) :: rest, true)
    else if t = t' then
      let r := addPosting calcNorm m d isTitle
      ((t', r.1) :: rest, r.2)
    else
      let r := dictUpsert calcNorm rest t d isTitle
      ((t', m) :: r.1, r.2)

/-- Builder state: the building dictionary, `doc_num`, and the instrumented
trace of arguments passed to `calc_norm` (title length then content length,
appended at each `BuildingPostingData::new`). -/
structure BState (κ : Type) where
  dict : Dict κ
  doc_num : Nat
  normCalls : List Nat

/-- `Builder::add_term`. -/
def addTerm (calcNorm : Nat → Nat) (st : BState κ) (t : κ) (d : Doc)
    (isTitle : Bool) : BState κ :=
  let r := dictUpsert calcNorm st.dict t d isTitle
  { dict := r.1
    doc_num := st.doc_num
    normCalls := st.normCalls ++ (if r.2 then [d.titleLen, d.contentLen] else []) }

/-- `Builder::add_document` with explicit analyzer results: `doc_num` is
incremented first; a title-analyzer error returns immediately; otherwise the
title terms are added, then the content analyzer may fail (title postings
stay), then the content terms are added.  The mutated builder state is
returned alongside the optional error. -/
def addDocumentE {ε : Type} (calcNorm : Nat → Nat) (st : BState κ)
    (rT rC : Except ε (List κ)) (d : Doc) : BState κ × Option ε :=
  let st1 : BState κ := { st with doc_num := st.doc_num + 1 }
  match rT with
  | .error e => (st1, some e)
  | .ok ts =>
    let st2 := ts.foldl (fun s x => addTerm calcNorm s x d true) st1
    match rC with
    | .error e => (st2, some e)
    | .ok cs => (cs.foldl (fun s x => addTerm calcNorm s x d false) st2, none)

/-- `Builder::add_document` when both analyzers succeed. -/
def addDocument (calcNorm : Nat → Nat) (tA cA : Doc → List κ) (st : BState κ)
    (d : Doc) : BState κ :=
  (addDocumentE (ε := Unit) calcNorm st (.ok (tA d)) (.ok (cA d)) d).1

/-- The builder after ingesting `docs` in order, starting from
`Builder::new`. -/
def build (calcNorm : Nat → Nat) (tA cA : Doc → List κ) (docs : List Doc) :
    BState κ :=
  docs.foldl (addDocument calcNorm tA cA) ⟨[], 0, []⟩

/-! ### `Builder::finish`: serialization and the term index -/

/-- Modelled from the spec §6 (`constants.rs` is not under `src/`): the
dictionary magic constant; its concrete value is immaterial here, only that
headers have the stated layout. -/
def TERM_DICT_MAGIC : Nat := 8315168441323247950

/-- Modelled from the spec §6: the single-byte format version. -/
def VERSION : Nat := 1

/-- One serialized posting record (`PostingListBuilder::finish` body):
doc_id as `u32le`, then `calc_tf` of both frequencies and the two norms. -/
def postingBytes (calcTf : Nat → Nat) (e : Nat × BPD) : List Nat :=
  u32le e.1 ++ [calcTf e.2.freq_title, calcTf e.2.freq_content,
                e.2.norm_title, e.2.norm_content]

/-- A full posting-list block: the `len:u32le` header then the records in
ascending doc-id order. -/
def blockBytes (calcTf : Nat → Nat) (m : PostingMap) : List Nat :=
  u32le m.length ++ (m.map (postingBytes calcTf)).flatten

/-- The dictionary-file header: magic `u64le`, version byte, `doc_num`
`u32le` (13 bytes). -/
def dictHeader (docNum : Nat) : List Nat :=
  u64le TERM_DICT_MAGIC ++ [VERSION] ++ u32le docNum

/-- The `finish` loop over the building dictionary in ascending term order:
each term is inserted into the index with the current dictionary offset, then
its block is appended. -/
def finishGo (calcTf : Nat → Nat) :
    Dict κ → List (κ × Nat) × List Nat → List (κ × Nat) × List Nat
  | [], acc => acc
  | (t, m) :: rest, acc =>
    finishGo calcTf rest (acc.1 ++ [(t, acc.2.length)], acc.2 ++ blockBytes calcTf m)

/-- `Builder::finish`: the pair of the term index (as inserted `(term,
offset)` pairs) and the dictionary file bytes. -/
def finish (calcTf : Nat → Nat) (st : BState κ) : List (κ × Nat) × List Nat :=
  finishGo calcTf st.dict ([], dictHeader st.doc_num)

/-- Exact `fst::Map::get`, modelled as first-match lookup among the inserted
pairs. -/
def indexGet (idx : List (κ × Nat)) (t : κ) : Option Nat :=
  (idx.find? fun e => decide (e.1 = t)).map Prod.snd

/-- `Query::query_term_postings` with `aut_builder` returning `None` (the
exact-lookup path): FST `get`, then `find_posting_list` at the returned
offset. -/
def queryTermPostingsExact (idx : List (κ × Nat)) (file : List Nat) (t : κ) :
    Except Error (Option RawPostingList) :=
  match indexGet idx t with
  | none => .ok none
  | some off => (RawPostingList.new file off).map some

/-! ### Denotational targets for the round-trip claim -/

/-- The documents in which term `t` appears (in either analyzer output), in
ingestion order. -/
def hitsOf (tA cA : Doc → List κ) (t : κ) (docs : List Doc) : List Doc :=
  docs.filter fun d => decide (t ∈ tA d ∨ t ∈ cA d)

/-- The building posting-map entry a hit document contributes: saturating
per-field occurrence counts and the two norms. -/
def entryOf (calcNorm : Nat → Nat) (tA cA : Doc → List κ) (t : κ) (d : Doc) :
    Nat × BPD :=
  (d.id, ⟨min ((tA d).count t) 65535, min ((cA d).count t) 65535,
          calcNorm d.titleLen, calcNorm d.contentLen⟩)

/-- The posting map a term should hold after the build: one entry per hit
document. -/
def targetPM (calcNorm : Nat → Nat) (tA cA : Doc → List κ) (t : κ)
    (docs : List Doc) : PostingMap :=
  (hitsOf tA cA t docs).map (entryOf calcNorm tA cA t)

/-- One upsert step on the optional posting map stored under a fixed term
(`add_posting` against the existing map, or against a fresh empty one). -/
def stepPM (calcNorm : Nat → Nat) (d : Doc) (b : Bool)
    (o : Option PostingMap) : Option PostingMap :=
  some (addPosting calcNorm (o.getD []) d b).1

/-- The building dictionary is strictly sorted by term (the `BTreeMap`
invariant). -/
def SortedDict (dict : Dict κ) : Prop :=
  dict.Pairwise fun a b => a.1 < b.1

end Builder

/-- Junk document used as the (never observed) default of in-bounds reads. -/
def djunk : Doc := ⟨0, 0, 0⟩

/-- Junk posting-map entry used as the default of in-bounds reads. -/
def pmjunk : Nat × BPD := (0, ⟨0, 0, 0, 0⟩)

/-! ### Query paging (`Query::query`, the range application)

`sort_by_cached_key` orders the working set by ascending `Score`, so the
best-scoring document sits at the END of the sorted vector `pl`; the ranked
(descending) list is its reverse.  The paging loop walks indices
`(end..start).rev()` of `pl` where `start = pl.len() - range.start` and
`end = pl.len() - range.end` (or 0 when `range.end` exceeds the length). -/

/-- The paging tail of `Query::query` over the ascending-sorted doc-id list
`pl` and the requested range `[rs, re)`. -/
def pageQuery (pl : List Nat) (rs re : Nat) : List Nat :=
  if rs < pl.length then
    let start := pl.length - rs
    let stop := if re ≤ pl.length then pl.length - re else 0
    ((List.range' stop (start - stop)).reverse).map fun i => pl.getD i 0
  else []

/-! ## Claim theorems -/

/-- Claim C1 (code_bug evidence): merging K = 2 posting lists with `union`
does NOT give every posting a `term_priority_info` of length 2.  With
`L1 = [doc 1, doc 2]` and `L2 = [doc 1]`, the two-pointer loop exhausts `L2`
first and the trailing working-set posting for doc 2 never receives the
sentinel zero tuple: its vector has length 1 after two merges. -/
theorem union_merge_counter_mismatch :
    ((Merger.new.union (recsToRPL [(1, (5, 6), (7, 8)), (2, (9, 10), (11, 12))])).union
        (recsToRPL [(1, (1, 2), (3, 4))])).merged_num = 2 ∧
    ((Merger.new.union (recsToRPL [(1, (5, 6), (7, 8)), (2, (9, 10), (11, 12))])).union
        (recsToRPL [(1, (1, 2), (3, 4))])).postings.map
        (fun p => p.term_priority_info.length) = [2, 1] := by
  decide

/-- Claim C3 (code_bug evidence): the two intersection strategies are NOT
equivalent.  On the working set `{1, 5, 6}` (one prior merge) against the
raw list `[2, 3]`, the binary-search strategy records `need_remove = [0, 1]`
with no drain and the index-shifted removal loop calls `Vec::remove(1)` on a
one-element vector — a panic (modelled as `none`) — while the linear-stitch
strategy drains `1..` and returns the empty working set. -/
theorem intersection_strategies_diverge :
    Merger.intersectionBySearch
        ⟨[⟨1, [TermPriorityInfo.notExist]⟩, ⟨5, [TermPriorityInfo.notExist]⟩,
          ⟨6, [TermPriorityInfo.notExist]⟩], 1⟩
        (recsToRPL [(2, (0, 0), (0, 0)), (3, (0, 0), (0, 0))]) = none ∧
    Merger.intersectionByStitch
        ⟨[⟨1, [TermPriorityInfo.notExist]⟩, ⟨5, [TermPriorityInfo.notExist]⟩,
          ⟨6, [TermPriorityInfo.notExist]⟩], 1⟩
        (recsToRPL [(2, (0, 0), (0, 0)), (3, (0, 0), (0, 0))]) =
      some ⟨[], 2⟩ := by
  decide

/-- Claim C4 (code_bug evidence): `intersection` of the sorted working set
`{1, 2, 3}` (one prior merge) with the raw list `[3]` dispatches to the
stitch strategy, which records `need_remove = [0, 1]`; after `remove(0)` the
vector has shifted, so `remove(1)` deletes the surviving doc 3 instead of
doc 2.  The result keeps exactly the posting for doc 2 — which does NOT
occur in the list (its vector also never received the (tf, norm) tuple) —
and drops doc 3, which does occur. -/
theorem intersection_removes_wrong_postings :
    Merger.intersection
        ⟨[⟨1, [TermPriorityInfo.notExist]⟩, ⟨2, [TermPriorityInfo.notExist]⟩,
          ⟨3, [TermPriorityInfo.notExist]⟩], 1⟩
        (recsToRPL [(3, (5, 6), (7, 8))]) =
      some ⟨[⟨2, [TermPriorityInfo.notExist]⟩], 2⟩ ∧
    (recsToRPL [(3, (5, 6), (7, 8))]).docIdAt 0 = 3 ∧
    (recsToRPL [(3, (5, 6), (7, 8))]).len = 1 := by
  decide

/-- Claim C6 (code_bug evidence): on a 4-byte file whose `len` header is
`2^29`, the `u32` computation `len * POSTING_SIZE` wraps to `0`, so the
truncation check passes and `RawPostingList::new` succeeds with an empty
mapping and `len() = 2^29` — even though the header is nonzero and the file
is far shorter than `offset + 4 + len * 8` bytes, where the claim requires
an `OutOfRange` error. -/
theorem raw_posting_list_overflow_accepts_truncated :
    RawPostingList.new [0, 0, 0, 32] 0 = .ok ⟨[], 536870912⟩ ∧
    (536870912 : Nat) ≠ 0 ∧
    List.length [0, 0, 0, 32] < 0 + 4 + 536870912 * 8 :=
  ⟨rfl, by decide, by decide⟩

/-- Claim C10: the `Ord for Score` comparison returns `Equal` whenever
either cosine is NaN, since neither `>` nor `<` holds on a NaN; a NaN-scored
posting therefore compares equal to every other posting (so the comparator
itself never fails, though it is not a lawful total order). -/
theorem scoreCmp_eq_of_nan {α : Type} [LinearOrder α] (a b : F α)
    (h : a = F.nan ∨ b = F.nan) : scoreCmp a b = .eq := by
  rcases h with h | h
  · subst h
    cases b with
    | fin x => rfl
    | inf s => cases s <;> rfl
    | nan => rfl
  · subst h
    cases a with
    | fin x => rfl
    | inf s => cases s <;> rfl
    | nan => rfl

/-- Witness for `scoreCmp_eq_of_nan` at a concrete NaN against a finite
score. -/
theorem scoreCmp_eq_of_nan_witness :
    ((F.nan : F Nat) = F.nan ∨ (F.fin 1 : F Nat) = F.nan) ∧
      scoreCmp (F.nan : F Nat) (F.fin 1) = .eq :=
  ⟨Or.inl rfl, scoreCmp_eq_of_nan F.nan (F.fin 1) (Or.inl rfl)⟩

/-- Claim C5 counterexample: on the all-zero vectors `[0]` and `[0]` the
sums are all zero, the denominator is `sqrt 0 * sqrt 0 = 0`, and the
division `0 / 0` yields NaN — not the `0` the claim requires.  (Only
`sqrt 0 = 0` is used of the square-root model.) -/
theorem cosine_zero_vectors_nan :
    calcCosineUnchecked (fun x : ℚ => if x = 0 then 0 else 1) [0] [0] = F.nan ∧
      F.nan ≠ F.fin (0 : ℚ) := by
  constructor
  · norm_num [calcCosineUnchecked, fdiv, List.range_succ]
  · intro h
    exact F.noConfusion h

/-- The accumulator of the `calc_cosine_unchecked` loop equals the triple of
partial sums. -/
theorem cosineFold_eq_sums {K : Type} [LinearOrderedField K] (a b : List K)
    (n : Nat) (init : K × K × K) :
    (List.range n).foldl
      (fun (acc : K × K × K) i =>
        let an := a.getD i 0
        let bn := b.getD i 0
        (acc.1 + an * bn, acc.2.1 + an * an, acc.2.2 + bn * bn)) init =
    (init.1 + ∑ i ∈ Finset.range n, a.getD i 0 * b.getD i 0,
     init.2.1 + ∑ i ∈ Finset.range n, a.getD i 0 * a.getD i 0,
     init.2.2 + ∑ i ∈ Finset.range n, b.getD i 0 * b.getD i 0) := by
  induction n with
  | zero => simp
  | succ n ih =>
    rw [List.range_succ, List.foldl_append, ih]
    simp only [List.foldl_cons, List.foldl_nil, Finset.sum_range_succ,
      Prod.mk.injEq]
    refine ⟨by ring, by ring, by ring⟩

/-- Claim C5 (amended): `calc_cosine_unchecked` returns the finite quotient
`dot / (sqrt(q_sum_a) * sqrt(q_sum_b))` when both sums of squares are
nonzero, and NaN — the IEEE result of `0 / 0`, not `0` — whenever either sum
of squares (equivalently, either Euclidean norm) is zero. -/
theorem cosine_quotient_or_nan {K : Type} [LinearOrderedField K]
    (sq : K → K) (hsq : ∀ x, 0 ≤ x → (sq x = 0 ↔ x = 0)) (a b : List K)
    (_hlen : a.length = b.length) :
    (((∑ i ∈ Finset.range a.length, a.getD i 0 * a.getD i 0) = 0 ∨
      (∑ i ∈ Finset.range a.length, b.getD i 0 * b.getD i 0) = 0) →
        calcCosineUnchecked sq a b = F.nan) ∧
    ((∑ i ∈ Finset.range a.length, a.getD i 0 * a.getD i 0) ≠ 0 →
     (∑ i ∈ Finset.range a.length, b.getD i 0 * b.getD i 0) ≠ 0 →
        calcCosineUnchecked sq a b =
          F.fin ((∑ i ∈ Finset.range a.length, a.getD i 0 * b.getD i 0) /
            (sq (∑ i ∈ Finset.range a.length, a.getD i 0 * a.getD i 0) *
             sq (∑ i ∈ Finset.range a.length, b.getD i 0 * b.getD i 0)))) := by
  have hunf : calcCosineUnchecked sq a b =
      fdiv (∑ i ∈ Finset.range a.length, a.getD i 0 * b.getD i 0)
        (sq (∑ i ∈ Finset.range a.length, a.getD i 0 * a.getD i 0) *
         sq (∑ i ∈ Finset.range a.length, b.getD i 0 * b.getD i 0)) := by
    simp only [calcCosineUnchecked, cosineFold_eq_sums, zero_add]
  rw [hunf]
  constructor
  · rintro (h | h)
    · have hz : ∀ i ∈ Finset.range a.length, a.getD i 0 = 0 := by
        intro i hi
        have := (Finset.sum_eq_zero_iff_of_nonneg
          (fun i _ => mul_self_nonneg (a.getD i 0))).mp h i hi
        exact mul_self_eq_zero.mp this
      have hdot : (∑ i ∈ Finset.range a.length, a.getD i 0 * b.getD i 0) = 0 :=
        Finset.sum_eq_zero fun i hi => by rw [hz i hi, zero_mul]
      have hsa : sq (∑ i ∈ Finset.range a.length, a.getD i 0 * a.getD i 0) = 0 := by
        rw [h]; exact (hsq 0 le_rfl).mpr rfl
      rw [hdot, hsa, zero_mul]
      simp [fdiv]
    · have hz : ∀ i ∈ Finset.range a.length, b.getD i 0 = 0 := by
        intro i hi
        have := (Finset.sum_eq_zero_iff_of_nonneg
          (fun i _ => mul_self_nonneg (b.getD i 0))).mp h i hi
        exact mul_self_eq_zero.mp this
      have hdot : (∑ i ∈ Finset.range a.length, a.getD i 0 * b.getD i 0) = 0 :=
        Finset.sum_eq_zero fun i hi => by rw [hz i hi, mul_zero]
      have hsb : sq (∑ i ∈ Finset.range a.length, b.getD i 0 * b.getD i 0) = 0 := by
        rw [h]; exact (hsq 0 le_rfl).mpr rfl
      rw [hdot, hsb, mul_zero]
      simp [fdiv]
  · intro h1 h2
    have hna : sq (∑ i ∈ Finset.range a.length, a.getD i 0 * a.getD i 0) ≠ 0 :=
      fun hq => h1 ((hsq _ (Finset.sum_nonneg fun i _ =>
        mul_self_nonneg (a.getD i 0))).mp hq)
    have hnb : sq (∑ i ∈ Finset.range a.length, b.getD i 0 * b.getD i 0) ≠ 0 :=
      fun hq => h2 ((hsq _ (Finset.sum_nonneg fun i _ =>
        mul_self_nonneg (b.getD i 0))).mp hq)
    simp only [fdiv, if_neg (mul_ne_zero hna hnb)]

/-- Witness for `cosine_quotient_or_nan` at `a = b = [1]` over `ℚ` with a
square-root model that fixes `0` and sends nonzero inputs to `1`. -/
theorem cosine_quotient_or_nan_witness :
    calcCosineUnchecked (fun x : ℚ => if x = 0 then 0 else 1) [1] [1] =
      F.fin 1 := by
  have h := (cosine_quotient_or_nan (K := ℚ)
    (fun x => if x = 0 then 0 else 1)
    (by intro x hx; by_cases h : x = 0 <;> simp [h]) [1] [1] rfl).2
    (by norm_num) (by norm_num)
  norm_num at h
  exact h

/-- Preservation of `doc_num` by the term-insertion folds of
`add_document`. -/
theorem doc_num_foldl_addTerm {κ : Type} [LinearOrder κ]
    (calcNorm : Nat → Nat) (ts : List κ) (d : Doc) (bl : Bool)
    (st : BState κ) :
    (ts.foldl (fun s x => addTerm calcNorm s x d bl) st).doc_num =
      st.doc_num := by
  induction ts generalizing st with
  | nil => rfl
  | cons x xs ih => rw [List.foldl_cons, ih]; rfl

/-- Claim C9: `add_document` is not atomic on error.  `doc_num` is bumped
before either analyzer runs; a title-analyzer error leaves the bumped
`doc_num` in place and returns the error; a content-analyzer error
additionally leaves every title posting in the building dictionary — no
rollback happens in either case. -/
theorem addDocument_not_atomic {κ ε : Type} [LinearOrder κ]
    (calcNorm : Nat → Nat) (st : BState κ) (d : Doc) (e : ε) (ts : List κ)
    (rC : Except ε (List κ)) :
    addDocumentE calcNorm st (.error e) rC d =
      ({ st with doc_num := st.doc_num + 1 }, some e) ∧
    addDocumentE calcNorm st (.ok ts) (.error e) d =
      (ts.foldl (fun s x => addTerm calcNorm s x d true)
        { st with doc_num := st.doc_num + 1 }, some e) ∧
    (addDocumentE calcNorm st (.ok ts) (.error e) d).1.doc_num =
      st.doc_num + 1 := by
  refine ⟨rfl, rfl, ?_⟩
  show (ts.foldl (fun s x => addTerm calcNorm s x d true)
    { st with doc_num := st.doc_num + 1 }).doc_num = st.doc_num + 1
  rw [doc_num_foldl_addTerm]

/-- Claim C7: the paging loop of `Query::query` returns exactly the segment
`[rs, min re n)` of the ranked (descending-score) list, which is the reverse
of the ascending-sorted vector; a start at or beyond `n` yields `[]`, and an
end beyond `n` is clipped. -/
theorem pageQuery_eq_ranked_slice (pl : List Nat) (rs re : Nat) :
    pageQuery pl rs re = ((pl.reverse).drop rs).take (min re pl.length - rs) := by
  by_cases h : rs < pl.length
  · simp only [pageQuery, if_pos h]
    apply List.ext_getElem
    · simp only [List.length_map, List.length_reverse, List.length_range',
        List.length_take, List.length_drop]
      split_ifs <;> omega
    · intro i h1 h2
      simp only [List.getElem_map, List.getElem_reverse, List.length_range',
        List.getElem_range', List.getElem_take, List.getElem_drop, one_mul]
      simp only [List.length_map, List.length_reverse, List.length_range'] at h1
      have hlt : (if re ≤ pl.length then pl.length - re else 0) +
          (pl.length - rs - (if re ≤ pl.length then pl.length - re else 0) - 1 - i) <
          pl.length := by split_ifs at h1 ⊢ <;> omega
      rw [List.getD_eq_getElem pl 0 hlt]
      congr 1
      split_ifs at h1 ⊢ <;> omega
  · simp only [pageQuery, if_neg h]
    rw [List.drop_eq_nil_of_le, List.take_nil]
    simpa using not_lt.mp h

/-! ### Association-lookup lemmas for the building dictionary -/

/-- Lookup in the empty dictionary. -/
theorem alookup_nil {κ : Type} [LinearOrder κ] (t : κ) :
    alookup ([] : Dict κ) t = none := rfl

/-- Lookup against a cons cell. -/
theorem alookup_cons {κ : Type} [LinearOrder κ] (t₀ : κ) (m : PostingMap)
    (l : Dict κ) (t : κ) :
    alookup ((t₀, m) :: l) t = if t₀ = t then some m else alookup l t := by
  unfold alookup
  rw [List.find?_cons]
  by_cases h : t₀ = t <;> simp [h]

/-- Lookup misses when no key matches. -/
theorem alookup_eq_none {κ : Type} [LinearOrder κ] (dict : Dict κ) (t : κ)
    (h : ∀ e ∈ dict, e.1 ≠ t) : alookup dict t = none := by
  unfold alookup
  have hf : dict.find? (fun e => decide (e.1 = t)) = none :=
    List.find?_eq_none.mpr fun x hx => by simp [h x hx]
  rw [hf]
  rfl

/-- Every key of an upserted dictionary is the upserted term or an old key. -/
theorem mem_dictUpsert_keys {κ : Type} [LinearOrder κ] (calcNorm : Nat → Nat)
    (dict : Dict κ) (t' : κ) (d : Doc) (b : Bool) (e : κ × PostingMap)
    (he : e ∈ (dictUpsert calcNorm dict t' d b).1) :
    e.1 = t' ∨ e.1 ∈ dict.map Prod.fst := by
  induction dict with
  | nil =>
    simp only [dictUpsert, List.mem_singleton] at he
    left; rw [he]
  | cons hd tl ih =>
    obtain ⟨t₀, m₀⟩ := hd
    simp only [dictUpsert] at he
    split_ifs at he with h1 h2
    · rcases List.mem_cons.mp he with h | h
      · left; rw [h]
      · right
        simp only [List.map_cons, List.mem_cons]
        rcases List.mem_cons.mp h with h' | h'
        · left; rw [h']
        · right; exact List.mem_map_of_mem Prod.fst h'
    · right
      simp only [List.map_cons, List.mem_cons]
      rcases List.mem_cons.mp he with h | h
      · left; rw [h]
      · right; exact List.mem_map_of_mem Prod.fst h
    · rcases List.mem_cons.mp he with h | h
      · right
        simp only [List.map_cons, List.mem_cons]
        left; rw [h]
      · rcases ih h with h' | h'
        · left; exact h'
        · right
          simp only [List.map_cons, List.mem_cons]
          right; exact h'

/-- `dictUpsert` preserves the strict sortedness of the dictionary. -/
theorem dictUpsert_sorted {κ : Type} [LinearOrder κ] (calcNorm : Nat → Nat)
    (dict : Dict κ) (t' : κ) (d : Doc) (b : Bool)
    (hs : SortedDict dict) : SortedDict (dictUpsert calcNorm dict t' d b).1 := by
  induction dict with
  | nil =>
    simp only [dictUpsert, SortedDict]
    exact List.pairwise_singleton _ _
  | cons hd tl ih =>
    obtain ⟨t₀, m₀⟩ := hd
    rw [SortedDict, List.pairwise_cons] at hs
    simp only [dictUpsert]
    split_ifs with h1 h2
    · rw [SortedDict, List.pairwise_cons]
      refine ⟨?_, List.pairwise_cons.mpr hs⟩
      intro e he
      rcases List.mem_cons.mp he with h | h
      · rw [h]; exact h1
      · exact lt_trans h1 (hs.1 e h)
    · rw [SortedDict, List.pairwise_cons]
      exact hs
    · rw [SortedDict, List.pairwise_cons]
      refine ⟨?_, ih hs.2⟩
      intro e he
      rcases mem_dictUpsert_keys calcNorm tl t' d b e he with h | h
      · rw [h]
        rcases lt_trichotomy t' t₀ with hlt | heq | hgt
        · exact absurd hlt h1
        · exact absurd heq h2
        · exact hgt
      · rcases List.mem_map.mp h with ⟨x, hx, hxe⟩
        rw [← hxe]
        exact hs.1 x hx

/-- In a sorted dictionary whose head key exceeds `t`, `t` is absent. -/
theorem alookup_none_of_lt_head {κ : Type} [LinearOrder κ] (t₀ : κ)
    (m₀ : PostingMap) (tl : Dict κ) (t : κ)
    (hs : ∀ e ∈ tl, t₀ < e.1) (hlt : t < t₀) :
    alookup ((t₀, m₀) :: tl) t = none := by
  apply alookup_eq_none
  intro e he hne
  rcases List.mem_cons.mp he with h | h
  · rw [h] at hne
    simp only at hne
    rw [hne] at hlt
    exact lt_irrefl _ hlt
  · have := hs e h
    rw [hne] at this
    exact absurd (lt_trans hlt this) (lt_irrefl _)

/-- Effect of `dictUpsert` on lookup: the upserted term maps to
`add_posting` against the old map (empty when absent), other terms are
untouched. -/
theorem alookup_dictUpsert {κ : Type} [LinearOrder κ] (calcNorm : Nat → Nat)
    (dict : Dict κ) (t' : κ) (d : Doc) (b : Bool) (t : κ)
    (hs : SortedDict dict) :
    alookup (dictUpsert calcNorm dict t' d b).1 t =
      if t' = t then some (addPosting calcNorm ((alookup dict t').getD []) d b).1
      else alookup dict t := by
  induction dict with
  | nil =>
    simp only [dictUpsert]
    rw [alookup_cons]
    by_cases h : t' = t <;> simp [h, alookup_nil]
  | cons hd tl ih =>
    obtain ⟨t₀, m₀⟩ := hd
    rw [SortedDict, List.pairwise_cons] at hs
    simp only [dictUpsert]
    rcases lt_trichotomy t' t₀ with h1 | h1 | h1
    · rw [if_pos h1]
      have habs : alookup ((t₀, m₀) :: tl) t' = none :=
        alookup_none_of_lt_head t₀ m₀ tl t' hs.1 h1
      rw [alookup_cons, habs]
      by_cases h : t' = t
      · rw [if_pos h, if_pos h]
        rfl
      · rw [if_neg h, if_neg h]
    · have hnlt : ¬ t' < t₀ := by rw [h1]; exact lt_irrefl t₀
      rw [if_neg hnlt, if_pos h1]
      subst h1
      by_cases h : t' = t <;> simp [alookup_cons, h]
    · have hnlt : ¬ t' < t₀ := lt_asymm h1
      have hne2 : ¬ t' = t₀ := fun hh => absurd (hh ▸ h1) (lt_irrefl _)
      have hne : ¬ t₀ = t' := fun hh => hne2 (hh.symm)
      rw [if_neg hnlt, if_neg hne2]
      rw [alookup_cons, alookup_cons, alookup_cons, if_neg hne, ih hs.2]
      by_cases h : t' = t
      · have h0 : ¬ t₀ = t := fun hh => hne (hh.trans h.symm)
        simp [h, h0]
      · by_cases h0 : t₀ = t <;> simp [h, h0]

/-- Effect of `dictUpsert` on the creation flag. -/
theorem dictUpsert_flag {κ : Type} [LinearOrder κ] (calcNorm : Nat → Nat)
    (dict : Dict κ) (t' : κ) (d : Doc) (b : Bool) (hs : SortedDict dict) :
    (dictUpsert calcNorm dict t' d b).2 =
      (addPosting calcNorm ((alookup dict t').getD []) d b).2 := by
  induction dict with
  | nil =>
    simp only [dictUpsert, alookup_nil]
    rfl
  | cons hd tl ih =>
    obtain ⟨t₀, m₀⟩ := hd
    rw [SortedDict, List.pairwise_cons] at hs
    simp only [dictUpsert]
    split_ifs with h1 h2
    · have habs : alookup ((t₀, m₀) :: tl) t' = none :=
        alookup_none_of_lt_head t₀ m₀ tl t' hs.1 h1
      rw [habs]
      rfl
    · subst h2
      rw [alookup_cons]
      simp
    · have ht₀ : t₀ < t' := by
        rcases lt_trichotomy t' t₀ with h | h | h
        · exact absurd h h1
        · exact absurd h h2
        · exact h
      have hne : ¬ t₀ = t' := fun hh => absurd (hh ▸ ht₀) (lt_irrefl _)
      rw [alookup_cons, if_neg hne]
      exact ih hs.2

/-! ### Folding term insertions -/

/-- `addTerm` preserves dictionary sortedness. -/
theorem addTerm_sorted {κ : Type} [LinearOrder κ] (calcNorm : Nat → Nat)
    (st : BState κ) (x : κ) (d : Doc) (b : Bool) (hs : SortedDict st.dict) :
    SortedDict (addTerm calcNorm st x d b).dict :=
  dictUpsert_sorted calcNorm st.dict x d b hs

/-- Folded `addTerm` preserves dictionary sortedness. -/
theorem foldl_addTerm_sorted {κ : Type} [LinearOrder κ] (calcNorm : Nat → Nat)
    (ts : List κ) (d : Doc) (b : Bool) (st : BState κ)
    (hs : SortedDict st.dict) :
    SortedDict ((ts.foldl (fun s x => addTerm calcNorm s x d b) st).dict) := by
  induction ts generalizing st with
  | nil => exact hs
  | cons x ts ih =>
    rw [List.foldl_cons]
    exact ih _ (addTerm_sorted calcNorm st x d b hs)

/-- Effect of one `addTerm` on lookup. -/
theorem alookup_addTerm {κ : Type} [LinearOrder κ] (calcNorm : Nat → Nat)
    (st : BState κ) (x : κ) (d : Doc) (b : Bool) (t : κ)
    (hs : SortedDict st.dict) :
    alookup (addTerm calcNorm st x d b).dict t =
      if x = t then stepPM calcNorm d b (alookup st.dict t)
      else alookup st.dict t := by
  show alookup (dictUpsert calcNorm st.dict x d b).1 t = _
  rw [alookup_dictUpsert calcNorm st.dict x d b t hs]
  by_cases h : x = t
  · subst h
    rw [if_pos rfl, if_pos rfl]
    rfl
  · rw [if_neg h, if_neg h]

/-- Folding `addTerm` over a token list applies one `stepPM` per occurrence
of the looked-up term. -/
theorem alookup_foldl_addTerm {κ : Type} [LinearOrder κ] (calcNorm : Nat → Nat)
    (ts : List κ) (d : Doc) (b : Bool) (t : κ) (st : BState κ)
    (hs : SortedDict st.dict) :
    alookup ((ts.foldl (fun s x => addTerm calcNorm s x d b) st).dict) t =
      (stepPM calcNorm d b)^[ts.count t] (alookup st.dict t) := by
  induction ts generalizing st with
  | nil => simp
  | cons x ts ih =>
    rw [List.foldl_cons, ih _ (addTerm_sorted calcNorm st x d b hs),
      alookup_addTerm calcNorm st x d b t hs]
    by_cases h : x = t
    · subst h
      rw [if_pos rfl, List.count_cons_self, Function.iterate_succ_apply]
    · rw [if_neg h, List.count_cons_of_ne (fun hh => h hh.symm)]

/-! ### Structure of `add_posting` against maps keyed below the new id -/

/-- When every existing key is below the document id, `add_posting` appends
a fresh entry at the end (and reports creation). -/
theorem addPosting_append (calcNorm : Nat → Nat) (m : PostingMap) (d : Doc)
    (b : Bool) (hm : ∀ e ∈ m, e.1 < d.id) :
    addPosting calcNorm m d b =
      (m ++ [(d.id, (BPD.mk0 calcNorm d).addTf b)], true) := by
  induction m with
  | nil => rfl
  | cons e rest ih =>
    obtain ⟨k, bb⟩ := e
    have hk : k < d.id := hm (k, bb) (by simp)
    have h1 : ¬ d.id < k := fun hh => absurd (lt_trans hk hh) (lt_irrefl _)
    have h2 : ¬ d.id = k := fun hh => absurd (hh ▸ hk) (lt_irrefl _)
    simp only [addPosting, if_neg h1, if_neg h2,
      ih fun e he => hm e (List.mem_cons_of_mem _ he), List.cons_append]

/-- When every earlier key is below the document id, `add_posting` updates
the trailing entry for that id in place (and reports no creation). -/
theorem addPosting_last (calcNorm : Nat → Nat) (m : PostingMap) (d : Doc)
    (b : Bool) (x : BPD) (hm : ∀ e ∈ m, e.1 < d.id) :
    addPosting calcNorm (m ++ [(d.id, x)]) d b =
      (m ++ [(d.id, x.addTf b)], false) := by
  induction m with
  | nil =>
    simp [addPosting]
  | cons e rest ih =>
    obtain ⟨k, bb⟩ := e
    have hk : k < d.id := hm (k, bb) (by simp)
    have h1 : ¬ d.id < k := fun hh => absurd (lt_trans hk hh) (lt_irrefl _)
    have h2 : ¬ d.id = k := fun hh => absurd (hh ▸ hk) (lt_irrefl _)
    have ih' := ih fun e he => hm e (List.mem_cons_of_mem _ he)
    simp only [List.cons_append, addPosting, if_neg h1, if_neg h2,
      List.append_eq, ih']

/-! ### Iterating the saturating frequency bumps -/

/-- Iterated title bump: saturating addition on `freq_title`. -/
theorem addTf_true_iter (k : Nat) (x : BPD) (hx : x.freq_title ≤ 65535) :
    (fun y => y.addTf true)^[k] x =
      ⟨min (x.freq_title + k) 65535, x.freq_content,
       x.norm_title, x.norm_content⟩ := by
  induction k generalizing x with
  | zero =>
    obtain ⟨f, g, u, v⟩ := x
    simp only [Function.iterate_zero_apply, Nat.add_zero, BPD.mk.injEq]
    refine ⟨?_, trivial, trivial, trivial⟩
    simp only at hx
    omega
  | succ k ih =>
    rw [Function.iterate_succ_apply]
    by_cases hf : x.freq_title < 65535
    · have hstep : x.addTf true = { x with freq_title := x.freq_title + 1 } := by
        simp [BPD.addTf, hf]
      rw [hstep, ih _ (by simp; omega)]
      simp only [BPD.mk.injEq]
      refine ⟨by omega, trivial, trivial, trivial⟩
    · have hstep : x.addTf true = x := by
        simp [BPD.addTf, hf]
      rw [hstep, ih _ hx]
      simp only [BPD.mk.injEq]
      refine ⟨by omega, trivial, trivial, trivial⟩

/-- Iterated content bump: saturating addition on `freq_content`. -/
theorem addTf_false_iter (k : Nat) (x : BPD) (hx : x.freq_content ≤ 65535) :
    (fun y => y.addTf false)^[k] x =
      ⟨x.freq_title, min (x.freq_content + k) 65535,
       x.norm_title, x.norm_content⟩ := by
  induction k generalizing x with
  | zero =>
    obtain ⟨f, g, u, v⟩ := x
    simp only [Function.iterate_zero_apply, Nat.add_zero, BPD.mk.injEq]
    refine ⟨trivial, ?_, trivial, trivial⟩
    simp only at hx
    omega
  | succ k ih =>
    rw [Function.iterate_succ_apply]
    by_cases hf : x.freq_content < 65535
    · have hstep : x.addTf false = { x with freq_content := x.freq_content + 1 } := by
        simp [BPD.addTf, hf]
      rw [hstep, ih _ (by simp; omega)]
      simp only [BPD.mk.injEq]
      refine ⟨trivial, by omega, trivial, trivial⟩
    · have hstep : x.addTf false = x := by
        simp [BPD.addTf, hf]
      rw [hstep, ih _ hx]
      simp only [BPD.mk.injEq]
      refine ⟨trivial, by omega, trivial, trivial⟩

/-! ### Iterating `stepPM` -/

/-- One or more `stepPM` steps starting from a map without the document id:
the first step appends a fresh entry, later steps bump it. -/
theorem stepPM_iter_fresh (calcNorm : Nat → Nat)
    (d : Doc) (b : Bool) (n : Nat) (o : Option PostingMap)
    (hm : ∀ e ∈ o.getD [], e.1 < d.id) :
    (stepPM calcNorm d b)^[n + 1] o =
      some ((o.getD []) ++
        [(d.id, (fun y => y.addTf b)^[n] ((BPD.mk0 calcNorm d).addTf b))]) := by
  induction n with
  | zero =>
    rw [Function.iterate_one]
    simp only [stepPM, addPosting_append calcNorm (o.getD []) d b hm,
      Function.iterate_zero_apply]
  | succ n ih =>
    rw [Function.iterate_succ_apply', ih]
    simp only [stepPM, Option.getD_some,
      addPosting_last calcNorm (o.getD []) d b _ hm]
    rw [Function.iterate_succ_apply']

/-- `stepPM` steps on a map ending in the document id bump that entry. -/
theorem stepPM_iter_last (calcNorm : Nat → Nat)
    (d : Doc) (b : Bool) (n : Nat) (m : PostingMap) (y : BPD)
    (hm : ∀ e ∈ m, e.1 < d.id) :
    (stepPM calcNorm d b)^[n] (some (m ++ [(d.id, y)])) =
      some (m ++ [(d.id, (fun z => z.addTf b)^[n] y)]) := by
  induction n generalizing y with
  | zero => simp
  | succ n ih =>
    rw [Function.iterate_succ_apply]
    have hstep : stepPM calcNorm d b (some (m ++ [(d.id, y)])) =
        some (m ++ [(d.id, y.addTf b)]) := by
      simp only [stepPM, Option.getD_some,
        addPosting_last calcNorm m d b y hm]
    rw [hstep, ih (y.addTf b), Function.iterate_succ_apply]

/-! ### The dictionary contents after a whole document, and after the build -/

/-- `add_document` (both analyzers succeeding) is the content fold after the
title fold on the bumped state. -/
theorem addDocument_eq {κ : Type} [LinearOrder κ] (calcNorm : Nat → Nat)
    (tA cA : Doc → List κ) (st : BState κ) (d : Doc) :
    addDocument calcNorm tA cA st d =
      (cA d).foldl (fun s x => addTerm calcNorm s x d false)
        ((tA d).foldl (fun s x => addTerm calcNorm s x d true)
          { st with doc_num := st.doc_num + 1 }) := rfl

/-- `add_document` preserves dictionary sortedness. -/
theorem addDocument_sorted {κ : Type} [LinearOrder κ] (calcNorm : Nat → Nat)
    (tA cA : Doc → List κ) (st : BState κ) (d : Doc)
    (hs : SortedDict st.dict) :
    SortedDict (addDocument calcNorm tA cA st d).dict := by
  rw [addDocument_eq]
  exact foldl_addTerm_sorted calcNorm (cA d) d false _
    (foldl_addTerm_sorted calcNorm (tA d) d true _ hs)

/-- The dictionary of the builder state is sorted throughout the build. -/
theorem build_sorted {κ : Type} [LinearOrder κ] (calcNorm : Nat → Nat)
    (tA cA : Doc → List κ) (docs : List Doc) :
    SortedDict (build calcNorm tA cA docs).dict := by
  suffices h : ∀ st : BState κ, SortedDict st.dict →
      SortedDict (docs.foldl (addDocument calcNorm tA cA) st).dict from
    h ⟨[], 0, []⟩ List.Pairwise.nil
  induction docs with
  | nil => exact fun st hs => hs
  | cons d ds ih =>
    intro st hs
    rw [List.foldl_cons]
    exact ih _ (addDocument_sorted calcNorm tA cA st d hs)

/-- Effect of one `add_document` on the posting map stored under `t`, when
every key already present is below the new document id: nothing changes if
`t` does not occur in the document, and otherwise one entry with the
saturating per-field counts and the two norms is appended. -/
theorem alookup_addDocument {κ : Type} [LinearOrder κ] (calcNorm : Nat → Nat)
    (tA cA : Doc → List κ) (st : BState κ) (d : Doc) (t : κ)
    (hs : SortedDict st.dict)
    (hkeys : ∀ e ∈ (alookup st.dict t).getD [], e.1 < d.id) :
    alookup (addDocument calcNorm tA cA st d).dict t =
      if (tA d).count t = 0 ∧ (cA d).count t = 0 then alookup st.dict t
      else some ((alookup st.dict t).getD [] ++
        [(d.id, ⟨min ((tA d).count t) 65535, min ((cA d).count t) 65535,
                 calcNorm d.titleLen, calcNorm d.contentLen⟩)]) := by
  rw [addDocument_eq]
  have hs1 : SortedDict (BState.dict { st with doc_num := st.doc_num + 1 }) := hs
  rw [alookup_foldl_addTerm calcNorm (cA d) d false t _
    (foldl_addTerm_sorted calcNorm (tA d) d true _ hs1)]
  rw [alookup_foldl_addTerm calcNorm (tA d) d true t _ hs1]
  cases hn1 : (tA d).count t with
  | zero =>
    rw [Function.iterate_zero_apply]
    cases hn2 : (cA d).count t with
    | zero =>
      rw [Function.iterate_zero_apply]
      simp
    | succ k =>
      rw [stepPM_iter_fresh calcNorm d false k _ hkeys]
      have hb : (BPD.mk0 calcNorm d).addTf false =
          ⟨0, 1, calcNorm d.titleLen, calcNorm d.contentLen⟩ := by
        simp [BPD.mk0, BPD.addTf]
      rw [hb, addTf_false_iter k _ (by simp)]
      rw [if_neg (by simp)]
      simp [Nat.add_comm]
  | succ k1 =>
    rw [stepPM_iter_fresh calcNorm d true k1 _ hkeys]
    rw [stepPM_iter_last calcNorm d false _ _ _ hkeys]
    have hb : (BPD.mk0 calcNorm d).addTf true =
        ⟨1, 0, calcNorm d.titleLen, calcNorm d.contentLen⟩ := by
      simp [BPD.mk0, BPD.addTf]
    rw [hb, addTf_true_iter k1 _ (by simp)]
    rw [addTf_false_iter _ _ (by simp)]
    rw [if_neg (by simp)]
    simp [Nat.add_comm]

/-- After building a document list with strictly increasing ids, the posting
map stored under any term is exactly one entry per hit document, in order:
the saturating per-field occurrence counts and the norms of both fields. -/
theorem alookup_build {κ : Type} [LinearOrder κ] (calcNorm : Nat → Nat)
    (tA cA : Doc → List κ) (docs : List Doc)
    (hsorted : docs.Pairwise fun a b => a.id < b.id) (t : κ) :
    alookup (build calcNorm tA cA docs).dict t =
      if hitsOf tA cA t docs = [] then none
      else some (targetPM calcNorm tA cA t docs) := by
  induction docs using List.reverseRecOn with
  | nil => simp [build, hitsOf, alookup_nil]
  | append_singleton ds d ih =>
    have hp := List.pairwise_append.mp hsorted
    have hds := hp.1
    have hcross : ∀ a ∈ ds, a.id < d.id := fun a ha => hp.2.2 a ha d (by simp)
    have hbuild : build calcNorm tA cA (ds ++ [d]) =
        addDocument calcNorm tA cA (build calcNorm tA cA ds) d := by
      simp [build, List.foldl_append]
    rw [hbuild]
    have hkeys : ∀ e ∈ (alookup (build calcNorm tA cA ds).dict t).getD [],
        e.1 < d.id := by
      rw [ih hds]
      split_ifs with hh
      · simp
      · intro e he
        simp only [Option.getD_some] at he
        rcases List.mem_map.mp he with ⟨a, ha, hae⟩
        rw [← hae]
        show (entryOf calcNorm tA cA t a).1 < d.id
        simp only [entryOf]
        exact hcross a (List.mem_of_mem_filter ha)
    rw [alookup_addDocument calcNorm tA cA _ d t
      (build_sorted calcNorm tA cA ds) hkeys]
    rw [ih hds]
    by_cases hd : t ∈ tA d ∨ t ∈ cA d
    · have hcnt : ¬ ((tA d).count t = 0 ∧ (cA d).count t = 0) := by
        rcases hd with h | h
        · exact fun hc => (List.count_eq_zero.mp hc.1) h
        · exact fun hc => (List.count_eq_zero.mp hc.2) h
      rw [if_neg hcnt]
      have hhits : hitsOf tA cA t (ds ++ [d]) = hitsOf tA cA t ds ++ [d] := by
        simp [hitsOf, List.filter_append, hd]
      have hne2 : ¬ hitsOf tA cA t (ds ++ [d]) = [] := by
        rw [hhits]; simp
      rw [if_neg hne2]
      split_ifs with hpre
      · simp only [Option.getD_none, List.nil_append, Option.some.injEq]
        simp [targetPM, hhits, hpre, entryOf]
      · simp only [Option.getD_some, Option.some.injEq]
        simp [targetPM, hhits, entryOf]
    · have hcnt : (tA d).count t = 0 ∧ (cA d).count t = 0 :=
        ⟨List.count_eq_zero.mpr fun hh => hd (Or.inl hh),
         List.count_eq_zero.mpr fun hh => hd (Or.inr hh)⟩
      rw [if_pos hcnt]
      have hhits : hitsOf tA cA t (ds ++ [d]) = hitsOf tA cA t ds := by
        simp [hitsOf, List.filter_append, hd]
      simp [targetPM, hhits]

/-! ### Serialization: offsets recorded by `finish` and byte-level decoding -/

/-- `finishGo` only appends to both accumulators. -/
theorem finishGo_extends {κ : Type} [LinearOrder κ] (calcTf : Nat → Nat)
    (dict : Dict κ) : ∀ (a1 : List (κ × Nat)) (a2 : List Nat),
    ∃ Δ1 Δ2, finishGo calcTf dict (a1, a2) = (a1 ++ Δ1, a2 ++ Δ2) := by
  induction dict with
  | nil => exact fun a1 a2 => ⟨[], [], by simp [finishGo]⟩
  | cons e rest ih =>
    intro a1 a2
    obtain ⟨t₀, m₀⟩ := e
    obtain ⟨Δ1, Δ2, h⟩ := ih (a1 ++ [(t₀, a2.length)]) (a2 ++ blockBytes calcTf m₀)
    refine ⟨(t₀, a2.length) :: Δ1, blockBytes calcTf m₀ ++ Δ2, ?_⟩
    show finishGo calcTf rest (a1 ++ [(t₀, a2.length)], a2 ++ blockBytes calcTf m₀) = _
    rw [h]
    simp

/-- The offset `finish` records for a term points at that term's serialized
block inside the produced file. -/
theorem finishGo_lookup {κ : Type} [LinearOrder κ] (calcTf : Nat → Nat)
    (dict : Dict κ) (t : κ) :
    ∀ (m : PostingMap) (a1 : List (κ × Nat)) (a2 : List Nat),
    a1.find? (fun e => decide (e.1 = t)) = none →
    alookup dict t = some m →
    ∃ off rest, indexGet (finishGo calcTf dict (a1, a2)).1 t = some off ∧
      (finishGo calcTf dict (a1, a2)).2.drop off =
        blockBytes calcTf m ++ rest := by
  induction dict with
  | nil =>
    intro m a1 a2 _ hfind
    rw [alookup_nil] at hfind
    exact absurd hfind (by simp)
  | cons e rest0 ih =>
    intro m a1 a2 hnone hfind
    obtain ⟨t₀, m₀⟩ := e
    rw [alookup_cons] at hfind
    by_cases h : t₀ = t
    · rw [if_pos h] at hfind
      obtain rfl : m₀ = m := Option.some.inj hfind
      obtain ⟨Δ1, Δ2, hext⟩ := finishGo_extends calcTf rest0
        (a1 ++ [(t₀, a2.length)]) (a2 ++ blockBytes calcTf m₀)
      refine ⟨a2.length, Δ2, ?_, ?_⟩
      · show indexGet (finishGo calcTf rest0
          (a1 ++ [(t₀, a2.length)], a2 ++ blockBytes calcTf m₀)).1 t = _
        rw [hext]
        simp [indexGet, List.find?_append, hnone, List.find?_cons, h]
      · show (finishGo calcTf rest0
          (a1 ++ [(t₀, a2.length)], a2 ++ blockBytes calcTf m₀)).2.drop a2.length = _
        rw [hext]
        simp [List.drop_left]
    · rw [if_neg h] at hfind
      have hnone2 : (a1 ++ [(t₀, a2.length)]).find?
          (fun e => decide (e.1 = t)) = none := by
        rw [List.find?_append, hnone]
        simp [h]
      exact ih m (a1 ++ [(t₀, a2.length)]) (a2 ++ blockBytes calcTf m₀)
        hnone2 hfind

/-- Every serialized posting record is eight bytes. -/
theorem postingBytes_length (calcTf : Nat → Nat) (e : Nat × BPD) :
    (postingBytes calcTf e).length = 8 := by
  simp [postingBytes, u32le]

/-- The record region of a block is `8 * count` bytes. -/
theorem records_length (calcTf : Nat → Nat) (m : PostingMap) :
    ((m.map (postingBytes calcTf)).flatten).length = 8 * m.length := by
  induction m with
  | nil => simp
  | cons e rest ih =>
    simp only [List.map_cons, List.flatten_cons, List.length_append,
      postingBytes_length, ih, List.length_cons]
    ring

/-- A full block is `4 + 8 * count` bytes. -/
theorem blockBytes_length (calcTf : Nat → Nat) (m : PostingMap) :
    (blockBytes calcTf m).length = 4 + 8 * m.length := by
  rw [blockBytes, List.length_append, records_length]
  simp [u32le]

/-- Decoding the `u32le` header prepended to anything returns the written
value modulo `2^32`. -/
theorem decodeU32le_u32le (n : Nat) (r : List Nat) :
    decodeU32le (u32le n ++ r) = n % 4294967296 := by
  simp [decodeU32le, u32le]
  omega

/-- Dropping `i` records lands on the serialization of record `i`. -/
theorem records_drop (calcTf : Nat → Nat) (m : PostingMap) :
    ∀ i : Nat, i < m.length →
    ((m.map (postingBytes calcTf)).flatten).drop (i * 8) =
      postingBytes calcTf (m.getD i pmjunk) ++
        ((m.drop (i + 1)).map (postingBytes calcTf)).flatten := by
  induction m with
  | nil => intro i h; simp at h
  | cons e rest ih =>
    intro i h
    cases i with
    | zero => simp
    | succ i =>
      have h8 : (i + 1) * 8 = (postingBytes calcTf e).length + i * 8 := by
        rw [postingBytes_length]
        ring
      simp only [List.map_cons, List.flatten_cons]
      rw [h8, List.drop_append]
      simp only [List.getD_cons_succ, List.drop_succ_cons]
      exact ih i (by simp at h; omega)

/-! ### Byte-level reads of a serialized record -/

/-- `getD` through `drop`. -/
theorem getD_drop_add (l : List Nat) (n k : Nat) :
    (l.drop n).getD k 0 = l.getD (n + k) 0 := by
  simp [List.getD, List.getElem?_drop]

/-- Decoding the id field of a record. -/
theorem decode_postingBytes (calcTf : Nat → Nat) (e : Nat × BPD)
    (r : List Nat) :
    decodeU32le (postingBytes calcTf e ++ r) = e.1 % 4294967296 := by
  rw [postingBytes, List.append_assoc, decodeU32le_u32le]

/-- Reading byte 4 of a record: the compressed title frequency. -/
theorem postingBytes_getD4 (calcTf : Nat → Nat) (e : Nat × BPD)
    (r : List Nat) :
    (postingBytes calcTf e ++ r).getD 4 0 = calcTf e.2.freq_title := by
  simp [postingBytes, u32le]

/-- Reading byte 5 of a record: the compressed content frequency. -/
theorem postingBytes_getD5 (calcTf : Nat → Nat) (e : Nat × BPD)
    (r : List Nat) :
    (postingBytes calcTf e ++ r).getD 5 0 = calcTf e.2.freq_content := by
  simp [postingBytes, u32le]

/-- Indexing into the target posting map selects the entry of the
corresponding hit document. -/
theorem targetPM_getD {κ : Type} [LinearOrder κ] (calcNorm : Nat → Nat)
    (tA cA : Doc → List κ) (t : κ) (docs : List Doc) (i : Nat)
    (hi : i < (hitsOf tA cA t docs).length) :
    (targetPM calcNorm tA cA t docs).getD i pmjunk =
      entryOf calcNorm tA cA t ((hitsOf tA cA t docs).getD i djunk) := by
  have hi2 : i < (targetPM calcNorm tA cA t docs).length := by
    simp [targetPM]
    omega
  rw [List.getD_eq_getElem _ _ hi2, List.getD_eq_getElem _ _ hi]
  simp [targetPM]

/-- A hit document is one of the indexed documents. -/
theorem hitsOf_getD_mem {κ : Type} [LinearOrder κ] (tA cA : Doc → List κ)
    (t : κ) (docs : List Doc) (i : Nat)
    (hi : i < (hitsOf tA cA t docs).length) :
    (hitsOf tA cA t docs).getD i djunk ∈ docs := by
  rw [List.getD_eq_getElem _ _ hi]
  exact List.mem_of_mem_filter (List.getElem_mem hi)

/-- In-bounds `get_doc_id` on an explicit reader. -/
theorem get_doc_id_mk (mm : List Nat) (n i : Nat) (h : i < n) :
    RawPostingList.get_doc_id ⟨mm, n⟩ i =
      .ok (decodeU32le (mm.drop (i * POSTING_SIZE))) := by
  rw [RawPostingList.get_doc_id, if_neg (show ¬ (n ≤ i) by omega)]

/-- In-bounds `get_tf` on an explicit reader. -/
theorem get_tf_mk (mm : List Nat) (n i : Nat) (h : i < n) :
    RawPostingList.get_tf ⟨mm, n⟩ i =
      .ok (mm.getD (i * POSTING_SIZE + 4) 0, mm.getD (i * POSTING_SIZE + 5) 0) := by
  rw [RawPostingList.get_tf, if_neg (show ¬ (n ≤ i) by omega)]

/-- Claim C2: round-trip through the builder, `finish`, and the exact-lookup
query path.  For documents with distinct (ascending) 32-bit ids, at most
`2^29 - 1` documents, and per-field occurrence counts within `u16` range,
every term produced by the analyzers resolves through the term index to a
successfully opened, non-empty posting list whose records enumerate exactly
the documents containing the term (in ascending id order), with the stored
`(tf_title, tf_content)` equal to `calc_tf` of the true per-field
frequencies.  The `calc_tf`/`calc_norm` compressions are abstract u8-valued
parameters. -/
theorem build_open_roundtrip {κ : Type} [LinearOrder κ]
    (calcTf calcNorm : Nat → Nat) (tA cA : Doc → List κ) (docs : List Doc)
    (_hTf : ∀ n, calcTf n < 256) (_hNorm : ∀ n, calcNorm n < 256)
    (hsorted : docs.Pairwise fun a b => a.id < b.id)
    (hid : ∀ d ∈ docs, d.id < 4294967296)
    (hcnt : docs.length < 536870912)
    (hfreq : ∀ d ∈ docs, ∀ s : κ,
      (tA d).count s ≤ 65535 ∧ (cA d).count s ≤ 65535)
    (t : κ) (ht : ∃ d ∈ docs, t ∈ tA d ∨ t ∈ cA d) :
    ∃ off L,
      indexGet (finish calcTf (build calcNorm tA cA docs)).1 t = some off ∧
      RawPostingList.new (finish calcTf (build calcNorm tA cA docs)).2 off =
        .ok L ∧
      queryTermPostingsExact (finish calcTf (build calcNorm tA cA docs)).1
        (finish calcTf (build calcNorm tA cA docs)).2 t = .ok (some L) ∧
      0 < L.len ∧
      L.len = (hitsOf tA cA t docs).length ∧
      (∀ i, i < L.len →
        L.get_doc_id i = .ok ((hitsOf tA cA t docs).getD i djunk).id) ∧
      (∀ i, i < L.len →
        L.get_tf i =
          .ok (calcTf ((tA ((hitsOf tA cA t docs).getD i djunk)).count t),
               calcTf ((cA ((hitsOf tA cA t docs).getD i djunk)).count t))) := by
  obtain ⟨d0, hd0, hd0t⟩ := ht
  have hmem : d0 ∈ hitsOf tA cA t docs :=
    List.mem_filter.mpr ⟨hd0, by simpa using hd0t⟩
  have hne : hitsOf tA cA t docs ≠ [] := List.ne_nil_of_mem hmem
  have hchar := alookup_build calcNorm tA cA docs hsorted t
  rw [if_neg hne] at hchar
  obtain ⟨off, rest, hoff, hdrop⟩ := finishGo_lookup calcTf
    (build calcNorm tA cA docs).dict t (targetPM calcNorm tA cA t docs) []
    (dictHeader (build calcNorm tA cA docs).doc_num) rfl hchar
  have hplen : (targetPM calcNorm tA cA t docs).length =
      (hitsOf tA cA t docs).length := by simp [targetPM]
  have hlen_lt : (hitsOf tA cA t docs).length < 536870912 :=
    lt_of_le_of_lt (List.length_filter_le _ _) hcnt
  have hlen_pos : 0 < (hitsOf tA cA t docs).length := List.length_pos.mpr hne
  have hfinish : finish calcTf (build calcNorm tA cA docs) =
      finishGo calcTf (build calcNorm tA cA docs).dict
        ([], dictHeader (build calcNorm tA cA docs).doc_num) := rfl
  set m := targetPM calcNorm tA cA t docs with hm
  set file := (finishGo calcTf (build calcNorm tA cA docs).dict
    ([], dictHeader (build calcNorm tA cA docs).doc_num)).2 with hfiledef
  have hfl : file.length - off = (4 + 8 * m.length) + rest.length := by
    rw [← List.length_drop, hdrop, List.length_append, blockBytes_length]
  have hmlen : m.length = (hitsOf tA cA t docs).length := hplen
  have hread : readU32le file off = some m.length := by
    rw [readU32le, if_pos (by omega)]
    rw [hdrop, blockBytes, List.append_assoc, decodeU32le_u32le,
      Nat.mod_eq_of_lt (by omega)]
  have hdrop4 : file.drop (off + 4) =
      (m.map (postingBytes calcTf)).flatten ++ rest := by
    have hdd : file.drop (off + 4) = (file.drop off).drop 4 := by
      rw [List.drop_drop]
    rw [hdd, hdrop, blockBytes, List.append_assoc,
      show (4 : Nat) = (u32le m.length).length from by simp [u32le],
      List.drop_left]
  have hnewL : RawPostingList.new file off =
      .ok ⟨(m.map (postingBytes calcTf)).flatten, m.length⟩ := by
    rw [RawPostingList.new]
    rw [hread]
    have hlz : ¬ (m.length = 0) := by omega
    have hbytes : m.length * POSTING_SIZE % 4294967296 = 8 * m.length := by
      simp only [POSTING_SIZE]
      omega
    simp only [hlz, if_false, hbytes, if_neg (show ¬ file.length < off + 4 + 8 * m.length by omega)]
    rw [hdrop4, ← records_length calcTf m, List.take_left]
  refine ⟨off, ⟨(m.map (postingBytes calcTf)).flatten, m.length⟩,
    ?_, ?_, ?_, ?_, ?_, ?_, ?_⟩
  · rw [hfinish]; exact hoff
  · rw [hfinish]; exact hnewL
  · rw [hfinish]
    simp only [queryTermPostingsExact, hoff, ← hfiledef, hnewL]
    rfl
  · show 0 < m.length
    omega
  · exact hmlen
  · intro i hi
    have hi' : i < List.length m := hi
    rw [get_doc_id_mk _ _ _ hi']
    simp only [POSTING_SIZE]
    rw [records_drop calcTf m i hi',
      targetPM_getD calcNorm tA cA t docs i (by omega),
      decode_postingBytes]
    rw [entryOf]
    rw [Nat.mod_eq_of_lt (hid _ (hitsOf_getD_mem tA cA t docs i (by omega)))]
  · intro i hi
    have hi' : i < List.length m := hi
    rw [get_tf_mk _ _ _ hi']
    simp only [POSTING_SIZE]
    rw [← getD_drop_add _ (i * 8) 4, ← getD_drop_add _ (i * 8) 5,
      records_drop calcTf m i hi',
      targetPM_getD calcNorm tA cA t docs i (by omega),
      postingBytes_getD4, postingBytes_getD5]
    have hd' := hitsOf_getD_mem tA cA t docs i (by omega)
    rw [entryOf]
    simp only [Except.ok.injEq, Prod.mk.injEq]
    constructor
    · rw [Nat.min_eq_left (hfreq _ hd' t).1]
    · rw [Nat.min_eq_left (hfreq _ hd' t).2]

/-- Witness for `build_open_roundtrip`: two documents, a title analyzer
emitting term `11` for both, an empty content analyzer, `calc_tf` and
`calc_norm` instantiated with concrete u8-valued compressions. -/
theorem build_open_roundtrip_witness :
    ∃ off L,
      indexGet (finish (fun n => min (8 * Nat.sqrt n) 255)
        (build (fun _ => 7) (fun _ => [11]) (fun _ => ([] : List Nat))
          [⟨1, 3, 5⟩, ⟨2, 4, 4⟩])).1 11 = some off ∧
      RawPostingList.new (finish (fun n => min (8 * Nat.sqrt n) 255)
        (build (fun _ => 7) (fun _ => [11]) (fun _ => ([] : List Nat))
          [⟨1, 3, 5⟩, ⟨2, 4, 4⟩])).2 off = .ok L ∧
      queryTermPostingsExact (finish (fun n => min (8 * Nat.sqrt n) 255)
        (build (fun _ => 7) (fun _ => [11]) (fun _ => ([] : List Nat))
          [⟨1, 3, 5⟩, ⟨2, 4, 4⟩])).1
        (finish (fun n => min (8 * Nat.sqrt n) 255)
          (build (fun _ => 7) (fun _ => [11]) (fun _ => ([] : List Nat))
            [⟨1, 3, 5⟩, ⟨2, 4, 4⟩])).2 11 = .ok (some L) ∧
      0 < L.len ∧
      L.len = (hitsOf (fun _ => [11]) (fun _ => ([] : List Nat)) 11
        [⟨1, 3, 5⟩, ⟨2, 4, 4⟩]).length ∧
      (∀ i, i < L.len →
        L.get_doc_id i = .ok ((hitsOf (fun _ => [11])
          (fun _ => ([] : List Nat)) 11
          [⟨1, 3, 5⟩, ⟨2, 4, 4⟩]).getD i djunk).id) ∧
      (∀ i, i < L.len →
        L.get_tf i =
          .ok ((fun n => min (8 * Nat.sqrt n) 255)
                 (((fun (_ : Doc) => [11]) ((hitsOf (fun _ => [11])
                   (fun _ => ([] : List Nat)) 11
                   [⟨1, 3, 5⟩, ⟨2, 4, 4⟩]).getD i djunk)).count 11),
               (fun n => min (8 * Nat.sqrt n) 255)
                 (((fun (_ : Doc) => ([] : List Nat)) ((hitsOf (fun _ => [11])
                   (fun _ => ([] : List Nat)) 11
                   [⟨1, 3, 5⟩, ⟨2, 4, 4⟩]).getD i djunk)).count 11))) :=
  build_open_roundtrip (κ := Nat) (fun n => min (8 * Nat.sqrt n) 255)
    (fun _ => 7) (fun _ => [11]) (fun _ => ([] : List Nat))
    [⟨1, 3, 5⟩, ⟨2, 4, 4⟩]
    (fun n => Nat.lt_succ_of_le (Nat.min_le_right _ _))
    (fun _ => by norm_num)
    (by simp)
    (by decide)
    (by decide)
    (fun d _ s => ⟨le_trans (List.count_le_length s _) (by norm_num),
                   le_trans (List.count_le_length s _) (by norm_num)⟩)
    11 ⟨⟨1, 3, 5⟩, by simp, by simp⟩

/-! ### The instrumented `calc_norm` call trace (claim C8) -/

/-- Folding `addTerm` only appends to the call trace, and every appended
argument is one of the two field lengths of the current document. -/
theorem normCalls_foldl_extends {κ : Type} [LinearOrder κ]
    (calcNorm : Nat → Nat) (ts : List κ) (d : Doc) (b : Bool) :
    ∀ st : BState κ,
    ∃ Δ, (ts.foldl (fun s x => addTerm calcNorm s x d b) st).normCalls =
        st.normCalls ++ Δ ∧
      ∀ y ∈ Δ, y = d.titleLen ∨ y = d.contentLen := by
  induction ts with
  | nil => exact fun st => ⟨[], by simp, by simp⟩
  | cons x ts ih =>
    intro st
    obtain ⟨Δ, hΔ, hall⟩ := ih (addTerm calcNorm st x d b)
    rw [List.foldl_cons]
    refine ⟨(if (dictUpsert calcNorm st.dict x d b).2 then
      [d.titleLen, d.contentLen] else []) ++ Δ, ?_, ?_⟩
    · rw [hΔ]
      show (addTerm calcNorm st x d b).normCalls ++ Δ = _
      rw [addTerm]
      simp [List.append_assoc]
    · intro y hy
      rcases List.mem_append.mp hy with h | h
      · split_ifs at h
        · rcases List.mem_cons.mp h with h' | h'
          · left; exact h'
          · right; simpa using h'
        · simp at h
      · exact hall y h

/-- When every key already stored under the term is below the document id,
`addTerm` creates a posting and records both field lengths as `calc_norm`
arguments. -/
theorem normCalls_addTerm_created {κ : Type} [LinearOrder κ]
    (calcNorm : Nat → Nat) (st : BState κ) (x : κ) (d : Doc) (b : Bool)
    (hs : SortedDict st.dict)
    (hkeys : ∀ e ∈ (alookup st.dict x).getD [], e.1 < d.id) :
    (addTerm calcNorm st x d b).normCalls =
      st.normCalls ++ [d.titleLen, d.contentLen] := by
  rw [addTerm]
  rw [dictUpsert_flag calcNorm st.dict x d b hs,
    addPosting_append calcNorm _ d b hkeys]
  simp

/-- The `calc_norm` arguments recorded while ingesting one document: only
the two field lengths ever occur; both are recorded as soon as the document
yields any term; none are recorded for a termless document. -/
theorem normCalls_addDocument {κ : Type} [LinearOrder κ]
    (calcNorm : Nat → Nat) (tA cA : Doc → List κ) (st : BState κ) (d : Doc)
    (hs : SortedDict st.dict)
    (hkeys : ∀ x : κ, ∀ e ∈ (alookup st.dict x).getD [], e.1 < d.id) :
    ∃ Δ, (addDocument calcNorm tA cA st d).normCalls = st.normCalls ++ Δ ∧
      (∀ y ∈ Δ, y = d.titleLen ∨ y = d.contentLen) ∧
      ((tA d ≠ [] ∨ cA d ≠ []) → d.titleLen ∈ Δ ∧ d.contentLen ∈ Δ) ∧
      (tA d = [] ∧ cA d = [] → Δ = []) := by
  rw [addDocument_eq]
  cases htA : tA d with
  | nil =>
    cases hcA : cA d with
    | nil =>
      refine ⟨[], by simp, by simp, ?_, by simp⟩
      intro h
      rcases h with h | h
      · exact absurd rfl h
      · exact absurd rfl h
    | cons c cs =>
      have h1 : (addTerm calcNorm
          { st with doc_num := st.doc_num + 1 } c d false).normCalls =
          st.normCalls ++ [d.titleLen, d.contentLen] :=
        normCalls_addTerm_created calcNorm _ c d false hs (hkeys c)
      obtain ⟨Δ, hΔ, hall⟩ := normCalls_foldl_extends calcNorm cs d false
        (addTerm calcNorm { st with doc_num := st.doc_num + 1 } c d false)
      refine ⟨[d.titleLen, d.contentLen] ++ Δ, ?_, ?_, ?_, ?_⟩
      · simp only [List.foldl_nil, List.foldl_cons]
        rw [hΔ, h1, List.append_assoc]
      · intro y hy
        rcases List.mem_append.mp hy with h | h
        · rcases List.mem_cons.mp h with h' | h'
          · left; exact h'
          · right; simpa using h'
        · exact hall y h
      · intro _
        constructor <;> simp
      · rintro ⟨-, h2'⟩
        exact absurd h2' (by simp)
  | cons x xs =>
    have h1 : (addTerm calcNorm
        { st with doc_num := st.doc_num + 1 } x d true).normCalls =
        st.normCalls ++ [d.titleLen, d.contentLen] :=
      normCalls_addTerm_created calcNorm _ x d true hs (hkeys x)
    obtain ⟨Δ1, hΔ1, hall1⟩ := normCalls_foldl_extends calcNorm xs d true
      (addTerm calcNorm { st with doc_num := st.doc_num + 1 } x d true)
    obtain ⟨Δ2, hΔ2, hall2⟩ := normCalls_foldl_extends calcNorm (cA d) d false
      (xs.foldl (fun s x => addTerm calcNorm s x d true)
        (addTerm calcNorm { st with doc_num := st.doc_num + 1 } x d true))
    refine ⟨[d.titleLen, d.contentLen] ++ Δ1 ++ Δ2, ?_, ?_, ?_, ?_⟩
    · simp only [List.foldl_cons]
      rw [hΔ2, hΔ1, h1]
      simp [List.append_assoc]
    · intro y hy
      rcases List.mem_append.mp hy with h | h
      · rcases List.mem_append.mp h with h' | h'
        · rcases List.mem_cons.mp h' with h2 | h2
          · left; exact h2
          · right; simpa using h2
        · exact hall1 y h'
      · exact hall2 y h
    · intro _
      constructor <;> simp
    · rintro ⟨h1', -⟩
      exact absurd h1' (by simp)

/-- Claim C8 (amended): during the build, `calc_norm` receives the argument
`0` exactly when some document that yields at least one term (in either
field) has an empty title or empty content — the builder computes norms for
BOTH fields of a document at its first posting creation, so an empty field
is not skipped whenever the other field produces a term. -/
theorem calcNorm_zero_arg_iff {κ : Type} [LinearOrder κ]
    (calcNorm : Nat → Nat) (tA cA : Doc → List κ) (docs : List Doc)
    (hsorted : docs.Pairwise fun a b => a.id < b.id) :
    0 ∈ (build calcNorm tA cA docs).normCalls ↔
      ∃ d ∈ docs, (tA d ≠ [] ∨ cA d ≠ []) ∧
        (d.titleLen = 0 ∨ d.contentLen = 0) := by
  induction docs using List.reverseRecOn with
  | nil => simp [build]
  | append_singleton ds d ih =>
    have hp := List.pairwise_append.mp hsorted
    have hds := hp.1
    have hcross : ∀ a ∈ ds, a.id < d.id := fun a ha => hp.2.2 a ha d (by simp)
    have hbuild : build calcNorm tA cA (ds ++ [d]) =
        addDocument calcNorm tA cA (build calcNorm tA cA ds) d := by
      simp [build, List.foldl_append]
    have hkeys : ∀ x : κ,
        ∀ e ∈ (alookup (build calcNorm tA cA ds).dict x).getD [],
        e.1 < d.id := by
      intro x
      rw [alookup_build calcNorm tA cA ds hds x]
      split_ifs with hh
      · simp
      · intro e he
        simp only [Option.getD_some] at he
        rcases List.mem_map.mp he with ⟨a, ha, hae⟩
        rw [← hae]
        show (entryOf calcNorm tA cA x a).1 < d.id
        simp only [entryOf]
        exact hcross a (List.mem_of_mem_filter ha)
    obtain ⟨Δ, hΔ, hall, hcre, hemp⟩ := normCalls_addDocument calcNorm tA cA
      (build calcNorm tA cA ds) d (build_sorted calcNorm tA cA ds) hkeys
    rw [hbuild, hΔ, List.mem_append, ih hds]
    constructor
    · rintro (h | h)
      · obtain ⟨d', hd', hprop⟩ := h
        exact ⟨d', List.mem_append_left _ hd', hprop⟩
      · have h0 : d.titleLen = 0 ∨ d.contentLen = 0 := by
          rcases hall 0 h with h' | h'
          · left; omega
          · right; omega
        have hterm : tA d ≠ [] ∨ cA d ≠ [] := by
          by_contra hc
          push_neg at hc
          rw [hemp ⟨hc.1, hc.2⟩] at h
          simp at h
        exact ⟨d, List.mem_append_right _ (by simp), hterm, h0⟩
    · rintro ⟨d', hd', hterm, h0⟩
      rcases List.mem_append.mp hd' with hmem | hmem
      · left
        exact ⟨d', hmem, hterm, h0⟩
      · right
        have hdd : d' = d := by simpa using hmem
        subst hdd
        rcases h0 with h0 | h0
        · have := (hcre hterm).1
          rw [h0] at this
          exact this
        · have := (hcre hterm).2
          rw [h0] at this
          exact this

/-- Claim C8 counterexample: a document with an EMPTY title (0 characters)
whose content yields one term.  The builder still creates its posting data,
and the recorded `calc_norm` arguments are `[0, 3]` — `calc_norm` IS called
with `len = 0`, where the claim requires empty fields to be skipped. -/
theorem calcNorm_called_with_zero :
    (build (fun n => n) (fun _ => ([] : List Nat)) (fun _ => [7])
      [⟨1, 0, 3⟩]).normCalls = [0, 3] := by
  decide

/-- Witness for `calcNorm_zero_arg_iff` at a concrete one-document corpus
with an empty title and one content term. -/
theorem calcNorm_zero_arg_iff_witness :
    0 ∈ (build (fun n => n) (fun _ => ([] : List Nat)) (fun _ => [8])
        [⟨1, 0, 3⟩]).normCalls ↔
      ∃ d ∈ [(⟨1, 0, 3⟩ : Doc)],
        ((fun _ => ([] : List Nat)) d ≠ [] ∨ (fun _ => [8]) d ≠ []) ∧
        (d.titleLen = 0 ∨ d.contentLen = 0) :=
  calcNorm_zero_arg_iff (fun n => n) (fun _ => ([] : List Nat))
    (fun _ => [8]) [⟨1, 0, 3⟩] (by simp)

end Shogun
